import Mathlib

/-!
Verification of the dirdocs cache/tree synchronization engine.

This file is a shallow embedding of the core of the `dirdocs` repository
(`src/cache.rs`, `src/types.rs`, and the scan/sync driver in `src/main.rs`)
together with theorems settling the frozen claims about it.

Modelling conventions:
- `chrono::DateTime<Utc>` timestamps are modelled as `Nat`; the ambient call
  of `Utc::now()` is passed in as an explicit `now : Nat` parameter.
- `serde_json::Value` (the opaque `joyThisFileBrings` payload) is modelled as
  `Option String` (`none` = JSON null, `some s` = any other value); the core
  never interprets it.
- Filesystem reads, JSON parsing and `pathdiff::diff_paths` are external
  effects; they enter the embedding as explicit arguments (`Option String`
  read results, abstract parse functions, an abstract diff result).
- Rust `HashMap<String, FileEntry>` is modelled extensionally as a function
  `String → Option FileEntry`; `map.insert` becomes a functional update.
  Where an iteration order is needed (the flat `updated_files` collection),
  an association list `List (String × FileEntry)` is used.
-/

namespace Dirdocs
/-- Opaque JSON scalar carried in `Doc.joyThisFileBrings` (`serde_json::Value`
in the source); `none` models JSON null, the default value. -/
abbrev Jv := Option String

/-- The generated annotation payload (`struct Doc` in `src/types.rs` /
`src/main.rs`): description, opaque joy value, personality emoji. -/
structure Doc where
  fileDescription : String
  joyThisFileBrings : Jv
  personalityEmoji : String
deriving DecidableEq, Repr

instance : Inhabited Doc := ⟨⟨"", none, ""⟩⟩

/-- A file entry (`struct FileEntry`): leaf name, relative path from the cache
root (the lookup key), content hash, timestamp, annotation. -/
structure FileEntry where
  name : String
  path : String
  hash : String
  updated_at : Nat
  doc : Doc
deriving DecidableEq, Repr

/-- The cache tree node (`enum Node`): a directory (name, own path label,
timestamp, children) or a file. -/
inductive Node where
  | dir (name : String) (path : String) (updated_at : Nat) (entries : List Node)
  | file (f : FileEntry)

/-- The serialized cache root (`struct DirdocsRoot`): display label, write
timestamp, top-level forest. -/
structure DirdocsRoot where
  root : String
  updated_at : Nat
  entries : List Node

/-- Character-level split of a path string on the separator: the pieces
between the slashes, in order (the accumulator holds the current piece
reversed). -/
def splitSlashGo : List Char → List Char → List (List Char)
  | [], acc => [acc.reverse]
  | c :: rest, acc =>
    if c = '/' then acc.reverse :: splitSlashGo rest []
    else splitSlashGo rest (c :: acc)

/-- Path components as extracted by `Path::new(rel_path).components()` keeping
only `Component::Normal`: split on the separator and drop empty, `.` and `..`
components (empty pieces cover repeated or leading separators, `.` covers
`CurDir`, `..` covers `ParentDir`). -/
def compsOf (s : String) : List String :=
  ((splitSlashGo s.data []).map (fun cs => String.mk cs)).filter
    (fun c => c ≠ "" ∧ c ≠ "." ∧ c ≠ "..")

/-- The `File` node pushed by `insert_recursive` at the leaf: named by the last
path component, all other fields copied from the inserted entry. -/
def leafOf (c : String) (fe : FileEntry) : FileEntry :=
  ⟨c, fe.path, fe.hash, fe.updated_at, fe.doc⟩

/-- The sibling-list scan of `insert_recursive`
(`entries.iter_mut().find(|n| matches Dir with name == dir_name)`): mutate the
first directory with the given name in place (recursing via `f` and stamping
its timestamp), or, when none exists, push a fresh directory at the end whose
`path` label is `comps[..1].join("/")`, i.e. the single component `c`. -/
def insertIntoDir (f : List Node → List Node) (c : String) (now : Nat) :
    List Node → List Node
  | [] => [Node.dir c c now (f [])]
  | Node.dir name path t entries :: tl =>
    if name = c then Node.dir name path now (f entries) :: tl
    else Node.dir name path t entries :: insertIntoDir f c now tl
  | Node.file g :: tl => Node.file g :: insertIntoDir f c now tl

/-- Recursive insertion of a file entry along its component list
(`insert_recursive` in `src/cache.rs` and `src/main.rs`): a single component
appends a `File` node at the end; several components descend through
`insertIntoDir`. The empty-components case is unreachable from
`insert_file_into_tree`. -/
def insert_recursive : List String → FileEntry → Nat → List Node → List Node
  | [], _, _, es => es
  | [c], fe, _, es => es ++ [Node.file (leafOf c fe)]
  | c :: c2 :: rest, fe, now, es =>
    insertIntoDir (insert_recursive (c2 :: rest) fe now) c now es

/-- Entry point of the tree builder (`insert_file_into_tree`): extract normal
components; when none remain the insertion is a no-op. -/
def insert_file_into_tree (es : List Node) (rel_path : String) (fe : FileEntry)
    (now : Nat) : List Node :=
  let comps := compsOf rel_path
  if comps.isEmpty then es else insert_recursive comps fe now es

/-- Depth-first list of the `File` entries of a forest, in traversal order of
`index_files_by_path`. -/
def dfsFiles : List Node → List FileEntry
  | [] => []
  | Node.dir _ _ _ entries :: tl => dfsFiles entries ++ dfsFiles tl
  | Node.file f :: tl => f :: dfsFiles tl

/-- The cache index (`index_files_by_path` in `src/cache.rs` / `src/main.rs`):
depth-first traversal inserting every `File` node under its `path` key, later
inserts overwriting earlier ones. The Rust `&mut HashMap` is the accumulator
`m`. -/
def index_files_by_path : List Node → (String → Option FileEntry) →
    (String → Option FileEntry)
  | [], m => m
  | Node.dir _ _ _ entries :: tl, m =>
    index_files_by_path tl (index_files_by_path entries m)
  | Node.file f :: tl, m =>
    index_files_by_path tl (fun q => if q = f.path then some f else m q)

/-- The empty index (a freshly created `HashMap`). -/
def emptyIdx : String → Option FileEntry := fun _ => none

/-- The tree rebuild of the scan/sync driver
(`for (rel_path, fe) in &updated_files { insert_file_into_tree(...) }`): fold
the flat collection into a fresh forest. -/
def buildEntries (l : List (String × FileEntry)) (now : Nat) : List Node :=
  l.foldl (fun es kv => insert_file_into_tree es kv.1 kv.2 now) []

/-- The leaf entry that `insert_file_into_tree` materializes for the pair
`(key, fe)`: named after the last path component of the key. -/
def leafFor (kv : String × FileEntry) : FileEntry :=
  leafOf ((compsOf kv.1).getLastD "") kv.2

/-- Relative-path label computation (`rel_label` in `src/cache.rs` and
`src/main.rs`): the `pathdiff::diff_paths(root_abs, cwd)` result is passed in
abstractly (`none` models `diff_paths` returning `None`, which the code
replaces by `"."`); an empty string is also replaced by `"."`. -/
def rel_label (diff : Option String) : String :=
  match diff with
  | none => "."
  | some s => if s = "" then "." else s

/-- Cache-store load (`load_existing_tree`): `readRes` is the
`fs::read_to_string` outcome (`none` = I/O error), `parse` the
`serde_json::from_str::<DirdocsRoot>` outcome on the read string. On any
failure the function returns a fresh empty tree labelled by `rel_label`;
it has no error channel at all. -/
def load_existing_tree (readRes : Option String)
    (parse : String → Option DirdocsRoot) (diff : Option String)
    (now : Nat) : DirdocsRoot :=
  match readRes with
  | some s =>
    match parse s with
    | some tree => tree
    | none => ⟨rel_label diff, now, []⟩
  | none => ⟨rel_label diff, now, []⟩

/-- Cache-store write (`write_tree` in `src/cache.rs`): `ser` is the
`serde_json::to_string_pretty` outcome, `wr` the `fs::write` effect on the
body (with trailing newline); both failures are propagated via `?`. -/
def write_tree (ser : Except String String)
    (wr : String → Except String Unit) : Except String Unit :=
  match ser with
  | Except.error e => Except.error e
  | Except.ok s => wr (s ++ "\n")

/-- The final persistence step of the driver (`main.rs`, the
`match fs::write(&dirdocs_path, serde_json::to_string_pretty(&new_root)? + "\n")`
block): a serialization failure is propagated by `?`, but a write failure is
only logged (`error!`) and the driver then falls through to `Ok(())`. -/
def mainFinalize (ser : Except String String)
    (wr : String → Except String Unit) : Except String Unit :=
  match ser with
  | Except.error e => Except.error e
  | Except.ok s =>
    match wr (s ++ "\n") with
    | Except.ok _ => Except.ok ()
    | Except.error _ => Except.ok ()

/-- Path join as used on rebased keys
(`base_rel.join(&f.path).to_string_lossy()`): `PathBuf::from("").join(p) = p`,
otherwise the separator is inserted. -/
def joinPath (base p : String) : String :=
  if base = "" then p else base ++ "/" ++ p

/-- The inner `walk` of `rebase_child_tree_into_existing_by_path`: every
`File` entry of the child forest is re-keyed (and its `path` field rewritten)
to `joinPath base path` and inserted into the accumulated map. -/
def rebase_walk (base : String) : List Node → (String → Option FileEntry) →
    (String → Option FileEntry)
  | [], m => m
  | Node.dir _ _ _ entries :: tl, m =>
    rebase_walk base tl (rebase_walk base entries m)
  | Node.file f :: tl, m =>
    rebase_walk base tl
      (fun q => if q = joinPath base f.path
        then some { f with path := joinPath base f.path } else m q)

/-- Rebasing a child cache into the merged index
(`rebase_child_tree_into_existing_by_path`): `base` is the
`pathdiff::diff_paths(child_root_abs, parent_root_abs).unwrap_or(".")` result,
passed in abstractly. -/
def rebase_child_tree_into_existing_by_path (base : String)
    (tree : DirdocsRoot) (m : String → Option FileEntry) :
    String → Option FileEntry :=
  rebase_walk base tree.entries m

/-- One walked file of the scan: relative path, leaf name, and the
`hash_file` outcome (`none` = I/O error while hashing). -/
structure WalkItem where
  rel : String
  name : String
  hashResult : Option String
deriving DecidableEq, Repr

/-- The regeneration tail of the walk loop for a non-reused file (`main.rs`
lines 307-441): the handlebars render of the prompt template (per-file
outcome `render`; `none` models the render error at lines 379-383, which
hits `continue`) and the `yaml::from_str::<ChatTemplate>` parse of the
rendered string (`parseTpl`, a function of that string; `none` models the
parse error at lines 390-394, also `continue`) must both succeed before any
entry is produced; the parsed template's content is consumed only by the
annotation call, which the model folds into `gen` (`none` = api failure or
response-parse failure, stored as the default empty `Doc`). A `none` result
means the file is skipped: no entry is inserted for it this run. -/
def regenerateFile (rel name h : String) (render : Option String)
    (parseTpl : String → Option Unit) (gen : Option Doc) (now : Nat) :
    Option FileEntry :=
  match render with
  | none => none
  | some s =>
    match parseTpl s with
    | none => none
    | some _ => some ⟨name, rel, h, now, gen.getD default⟩

/-- Per-file decision of the scan/sync driver (`main.rs` lines 284-305 and
the regeneration tail): reuse the cached entry iff an index entry exists, the
force flag is unset, the stored hash equals the fresh hash and the stored
description is non-empty — keeping the previous `updated_at` and `doc`; in
every other case regeneration is attempted via `regenerateFile`, which may
produce a fresh entry stamped `now` or skip the file (`none`) when the
template render or its parse fails. -/
def processFile (idx : String → Option FileEntry) (force : Bool)
    (rel name h : String) (render : Option String)
    (parseTpl : String → Option Unit) (gen : Option Doc) (now : Nat) :
    Option FileEntry :=
  match idx rel with
  | some prev =>
    if force = false ∧ prev.hash = h ∧ prev.doc.fileDescription ≠ "" then
      some ⟨name, rel, h, prev.updated_at, prev.doc⟩
    else
      regenerateFile rel name h render parseTpl gen now
  | none => regenerateFile rel name h render parseTpl gen now

/-- The walk loop of the driver: files whose hashing failed are skipped
(`continue` at `main.rs` 274-280), files whose per-file outcome is `none`
(template render or parse failure in the regeneration tail) are likewise
skipped, and every other file contributes its `processFile` entry to the
flat `updated_files` collection, keyed by relative path. `render` and `gen`
are the per-file template-render and annotation outcomes, `parseTpl` the
`ChatTemplate` parse on the rendered string. -/
def processWalk (idx : String → Option FileEntry) (force : Bool)
    (render : String → Option String) (parseTpl : String → Option Unit)
    (gen : String → Option Doc) (now : Nat) : List WalkItem →
    List (String × FileEntry)
  | [] => []
  | w :: tl =>
    match w.hashResult with
    | none => processWalk idx force render parseTpl gen now tl
    | some h =>
      match processFile idx force w.rel w.name h (render w.rel) parseTpl
          (gen w.rel) now with
      | none => processWalk idx force render parseTpl gen now tl
      | some fe =>
        (w.rel, fe) :: processWalk idx force render parseTpl gen now tl

/-- Whether the walk keeps an entry for a given file: hashing succeeded and
the per-file outcome is an entry (reuse, or a regeneration whose template
stage succeeded). -/
def walkKept (idx : String → Option FileEntry) (force : Bool)
    (render : String → Option String) (parseTpl : String → Option Unit)
    (gen : String → Option Doc) (now : Nat) (w : WalkItem) : Bool :=
  match w.hashResult with
  | none => false
  | some h =>
    (processFile idx force w.rel w.name h (render w.rel) parseTpl
      (gen w.rel) now).isSome

/-- Lookup in the flat `updated_files` map built by repeated
`HashMap::insert` over an association list: the last insert wins. -/
def flatLookup (l : List (String × FileEntry)) (q : String) :
    Option FileEntry :=
  (l.reverse.find? (fun kv => kv.1 == q)).map (fun kv => kv.2)

/-- The recognized cache filenames (`CHILD_CACHE_NAMES`). -/
def childCacheNames : List String := [".dirdocs.nu", ".dir.nuon"]

/-- ASCII lowercasing of one character, as in Rust's
`eq_ignore_ascii_case`. -/
def asciiLower (c : Char) : Char :=
  if 'A' ≤ c ∧ c ≤ 'Z' then Char.ofNat (c.toNat + 32) else c

/-- Rust `str::eq_ignore_ascii_case`. -/
def eqIgnoreAsciiCase (a b : String) : Bool :=
  a.data.map asciiLower == b.data.map asciiLower

/-- The per-directory check of `find_child_cache_dirs`: does this directory
directly contain a file whose name case-insensitively matches one of the
recognized cache names? -/
def hasCacheFile (files : List String) : Bool :=
  files.any (fun f => childCacheNames.any (fun n => eqIgnoreAsciiCase n f))

/-- Abstract filesystem directory for the discovery walk: whether
`fs::read_dir` succeeds on it, the names of the plain files it directly
contains, and its named subdirectories. Canonicalization is the identity in
this model (paths are already canonical component lists). -/
inductive FsDir where
  | node (readable : Bool) (files : List String) (subs : List (String × FsDir))

instance : Inhabited FsDir := ⟨FsDir.node true [] []⟩

mutual

/-- Weight of a directory tree, used as the termination measure of the
stack-based walk. -/
def fsWeight : FsDir → Nat
  | .node _ _ subs => 1 + subsWeight subs

/-- Total weight of a subdirectory list. -/
def subsWeight : List (String × FsDir) → Nat
  | [] => 0
  | s :: tl => fsWeight s.2 + subsWeight tl

end

/-- Total weight of a traversal stack. -/
def stackWeight : List (List String × FsDir) → Nat
  | [] => 0
  | e :: tl => fsWeight e.2 + stackWeight tl


/-- The stack-based walk of `find_child_cache_dirs`: pop a directory; an
unreadable one is skipped; one that directly holds a cache file is recorded
and not descended into; otherwise all its subdirectories are pushed. Rust
pushes to and pops from the end of a `Vec`; this model mirrors the same LIFO
discipline at the list head, pushing the subdirectory list reversed. -/
def findLoop : List (List String × FsDir) → List (List String)
  | [] => []
  | (p, FsDir.node r files subs) :: rest =>
    if r = false then findLoop rest
    else if hasCacheFile files then p :: findLoop rest
    else findLoop ((subs.map (fun s => (p ++ [s.1], s.2))).reverse ++ rest)
termination_by st => stackWeight st
decreasing_by
  · simp only [stackWeight, fsWeight]
    omega
  · simp only [stackWeight, fsWeight]
    omega
  · have happ : ∀ (a b : List (List String × FsDir)),
        stackWeight (a ++ b) = stackWeight a + stackWeight b := by
      intro a b
      induction a with
      | nil => simp [stackWeight]
      | cons e tl ih => simp [stackWeight, ih, Nat.add_assoc]
    have hrev : ∀ (a : List (List String × FsDir)),
        stackWeight a.reverse = stackWeight a := by
      intro a
      induction a with
      | nil => rfl
      | cons e tl ih =>
        simp [List.reverse_cons, happ, stackWeight, ih, Nat.add_comm]
    have hmap : stackWeight (subs.map (fun s => (p ++ [s.1], s.2)))
        = subsWeight subs := by
      induction subs with
      | nil => rfl
      | cons s tl ih => simp [stackWeight, subsWeight, ih]
    simp only [stackWeight, fsWeight, happ, hrev, hmap]
    omega

/-- Lexicographic comparison of component paths, mirroring the `Ord`
instance on `PathBuf` used by `out.sort()`. -/
def pathLe : List String → List String → Bool
  | [], _ => true
  | _ :: _, [] => false
  | a :: as2, b :: bs => if a = b then pathLe as2 bs else decide (a < b)

/-- Rust `Vec::dedup`: collapse runs of consecutive equal elements, keeping
the first of each run. -/
def dedupConsec : List (List String) → List (List String)
  | [] => []
  | [a] => [a]
  | a :: b :: tl =>
    if a = b then dedupConsec (a :: tl) else a :: dedupConsec (b :: tl)
termination_by l => l.length

/-- Full child-cache discovery (`find_child_cache_dirs`): walk from the root,
then `out.sort(); out.dedup()`. -/
def find_child_cache_dirs (fs : FsDir) : List (List String) :=
  dedupConsec ((findLoop [([], fs)]).mergeSort pathLe)

/-- Specification predicate for discovery: `okPath p fs` holds iff descending
from the root along `p` meets only readable, cache-free directories until the
final directory, which is readable and directly holds a cache file. -/
def okPath : List String → FsDir → Bool
  | [], FsDir.node r files _ => r && hasCacheFile files
  | c :: rest, FsDir.node r files subs =>
    r && !hasCacheFile files &&
      subs.any (fun s => s.1 == c && okPath rest s.2)


/-- Decidable form of the amended directory-label invariant: every `Dir` node
in the forest carries a `path` equal to its own `name`. -/
def dirsOk : List Node → Bool
  | [] => true
  | Node.dir name path _ entries :: tl =>
    (path == name) && dirsOk entries && dirsOk tl
  | Node.file _ :: tl => dirsOk tl

/-- Depth-first list of the (name, path) labels of all `Dir` nodes. -/
def dirLabels : List Node → List (String × String)
  | [] => []
  | Node.dir name path _ entries :: tl =>
    (name, path) :: (dirLabels entries ++ dirLabels tl)
  | Node.file _ :: tl => dirLabels tl

/-- Depth-first list of the `updated_at` stamps of all `Dir` nodes. -/
def dirTimes : List Node → List Nat
  | [] => []
  | Node.dir _ _ t entries :: tl => t :: (dirTimes entries ++ dirTimes tl)
  | Node.file _ :: tl => dirTimes tl

/-- Concrete annotation used by witnesses. -/
def exDoc : Doc := ⟨"Helper functions", none, "e"⟩

/-- Concrete cached entry with a non-empty description. -/
def exPrev : FileEntry := ⟨"b.txt", "a/b.txt", "h1", 3, exDoc⟩

/-- Concrete merged index holding `exPrev` under its path. -/
def exIdx : String → Option FileEntry :=
  fun q => if q = "a/b.txt" then some exPrev else none

/-- Concrete cached entry whose description is empty (a previously failed
annotation). -/
def exPrevEmpty : FileEntry := ⟨"b.txt", "a/b.txt", "h1", 3, ⟨"", none, ""⟩⟩

/-- Concrete merged index holding `exPrevEmpty` under its path. -/
def exIdxEmpty : String → Option FileEntry :=
  fun q => if q = "a/b.txt" then some exPrevEmpty else none

/-- Concrete one-file walk whose hash matches `exPrev.hash`. -/
def exItems : List WalkItem := [⟨"a/b.txt", "b.txt", some "h1"⟩]

/-- Annotation capability that always fails. -/
def exGenNone : String → Option Doc := fun _ => none

/-- Template render that always succeeds. -/
def exRenderOk : String → Option String := fun _ => some "tpl"

/-- ChatTemplate parse that always succeeds. -/
def exParseOk : String → Option Unit := fun _ => some ()

/-- Concrete walk with one hash failure and one success. -/
def exItemsHashFail : List WalkItem :=
  [⟨"a.txt", "a.txt", none⟩, ⟨"b.txt", "b.txt", some "hb"⟩]

/-- Concrete flat map for the round-trip witness. -/
def exFlat : List (String × FileEntry) :=
  [("a/b.txt", ⟨"b.txt", "a/b.txt", "h", 3, ⟨"d", none, "p"⟩⟩)]

/-- Concrete flat map whose single entry has a `name` that is not the last
component of its key. -/
def exFlatBadName : List (String × FileEntry) :=
  [("a", ⟨"zzz", "a", "h", 0, ⟨"", none, ""⟩⟩)]

/-- Concrete entry used for tree-builder counterexamples. -/
def exFe : FileEntry := ⟨"c.txt", "a/b/c.txt", "h", 0, ⟨"", none, ""⟩⟩

/-- An `fs::write` effect that always fails. -/
def exWrFail : String → Except String Unit :=
  fun _ => Except.error "disk full"

/-- A JSON parse that always fails. -/
def exParseNone : String → Option DirdocsRoot := fun _ => none


/-! Theorems. -/

theorem dfsFiles_append (a b : List Node) :
    dfsFiles (a ++ b) = dfsFiles a ++ dfsFiles b := by
  induction a using dfsFiles.induct with
  | case1 => simp [dfsFiles]
  | case2 _ _ _ entries tl ih1 ih2 => simp [dfsFiles, ih2, List.append_assoc]
  | case3 f tl ih => simp [dfsFiles, ih]

theorem index_files_by_path_char (nodes : List Node) :
    ∀ (m : String → Option FileEntry) (q : String),
    index_files_by_path nodes m q =
      ((dfsFiles nodes).reverse.find? (fun f => f.path == q)).or (m q) := by
  induction nodes using dfsFiles.induct with
  | case1 => intro m q; simp [index_files_by_path, dfsFiles]
  | case2 _ _ _ entries tl ih1 ih2 =>
    intro m q
    simp only [index_files_by_path, dfsFiles]
    rw [ih2, ih1]
    simp [List.find?_append, Option.or_assoc]
  | case3 f tl ih =>
    intro m q
    simp only [index_files_by_path, dfsFiles]
    rw [ih]
    simp only [List.reverse_cons, List.find?_append, Option.or_assoc]
    congr 1
    by_cases h : q = f.path
    · simp [List.find?, h]
    · have h2 : (f.path == q) = false := by
        simp [beq_eq_false_iff_ne]
        exact fun hh => h hh.symm
      simp [List.find?, h2, h]

theorem dfsFiles_insertIntoDir (f : List Node → List Node) (c : String)
    (now : Nat) (x : FileEntry)
    (hf : ∀ es, (dfsFiles (f es)).Perm (dfsFiles es ++ [x])) :
    ∀ es, (dfsFiles (insertIntoDir f c now es)).Perm (dfsFiles es ++ [x]) := by
  intro es
  induction es using insertIntoDir.induct f c now with
  | case1 =>
    simpa [insertIntoDir, dfsFiles] using hf []
  | case2 path t entries tl =>
    have hstep : insertIntoDir f c now (Node.dir c path t entries :: tl)
        = Node.dir c path now (f entries) :: tl := by
      simp [insertIntoDir]
    rw [hstep]
    simp only [dfsFiles]
    have p1 : (dfsFiles (f entries) ++ dfsFiles tl).Perm
        ((dfsFiles entries ++ [x]) ++ dfsFiles tl) :=
      (hf entries).append_right _
    have p2 : ((dfsFiles entries ++ [x]) ++ dfsFiles tl).Perm
        (dfsFiles entries ++ (dfsFiles tl ++ [x])) := by
      rw [List.append_assoc]
      exact List.Perm.append_left _ List.perm_append_comm
    simpa [List.append_assoc] using p1.trans p2
  | case3 name path t entries tl hname ih =>
    have hstep : insertIntoDir f c now (Node.dir name path t entries :: tl)
        = Node.dir name path t entries :: insertIntoDir f c now tl := by
      simp [insertIntoDir, hname]
    rw [hstep]
    simp only [dfsFiles]
    have p1 : (dfsFiles entries ++ dfsFiles (insertIntoDir f c now tl)).Perm
        (dfsFiles entries ++ (dfsFiles tl ++ [x])) :=
      List.Perm.append_left _ ih
    simpa [List.append_assoc] using p1
  | case4 g tl ih =>
    simp only [insertIntoDir, dfsFiles]
    exact ih.cons g

theorem dfsFiles_insert_recursive (comps : List String) :
    ∀ (fe : FileEntry) (now : Nat) (es : List Node), comps ≠ [] →
    (dfsFiles (insert_recursive comps fe now es)).Perm
      (dfsFiles es ++ [leafOf (comps.getLastD "") fe]) := by
  induction comps with
  | nil => intro _ _ _ h; exact absurd rfl h
  | cons c rest ih =>
    intro fe now es _
    cases rest with
    | nil =>
      simp [insert_recursive, dfsFiles_append, dfsFiles]
    | cons c2 rest2 =>
      simp only [insert_recursive, List.getLastD_cons]
      simpa only [List.getLastD_cons] using
        dfsFiles_insertIntoDir _ c now _
          (fun es2 => ih fe now es2 (by simp)) es

theorem dfsFiles_insert_file_into_tree (es : List Node) (k : String)
    (fe : FileEntry) (now : Nat) (h : compsOf k ≠ []) :
    (dfsFiles (insert_file_into_tree es k fe now)).Perm
      (dfsFiles es ++ [leafFor (k, fe)]) := by
  show (dfsFiles (if (compsOf k).isEmpty then es
      else insert_recursive (compsOf k) fe now es)).Perm _
  rw [if_neg (by simpa [List.isEmpty_iff] using h)]
  exact dfsFiles_insert_recursive _ _ _ _ h

theorem dfsFiles_insert_file_into_tree_noop (es : List Node) (k : String)
    (fe : FileEntry) (now : Nat) (h : compsOf k = []) :
    insert_file_into_tree es k fe now = es := by
  unfold insert_file_into_tree
  simp [h]

theorem dfsFiles_buildEntries_aux (l : List (String × FileEntry)) :
    ∀ (es : List Node) (now : Nat),
    (dfsFiles (l.foldl (fun es kv => insert_file_into_tree es kv.1 kv.2 now) es)).Perm
      (dfsFiles es ++ (l.filter (fun kv => ¬(compsOf kv.1).isEmpty)).map leafFor) := by
  induction l with
  | nil => intro es now; simp
  | cons kv tl ih =>
    intro es now
    simp only [List.foldl_cons]
    by_cases hc : compsOf kv.1 = []
    · rw [dfsFiles_insert_file_into_tree_noop es kv.1 kv.2 now hc]
      have : ¬(compsOf kv.1).isEmpty = true → False := by simp [hc]
      simpa [List.filter_cons, hc] using ih es now
    · have step := dfsFiles_insert_file_into_tree es kv.1 kv.2 now hc
      have h1 := ih (insert_file_into_tree es kv.1 kv.2 now) now
      have h2 : (dfsFiles (insert_file_into_tree es kv.1 kv.2 now) ++
          (tl.filter (fun kv => ¬(compsOf kv.1).isEmpty)).map leafFor).Perm
          ((dfsFiles es ++ [leafFor kv]) ++
            (tl.filter (fun kv => ¬(compsOf kv.1).isEmpty)).map leafFor) :=
        step.append_right _
      have h3 := h1.trans h2
      simpa [List.filter_cons, hc, List.append_assoc] using h3

/-- DFS contents of the rebuilt tree: exactly one leaf per inserted pair with a
non-empty component list, up to sibling order. -/
theorem dfsFiles_buildEntries (l : List (String × FileEntry)) (now : Nat) :
    (dfsFiles (buildEntries l now)).Perm
      ((l.filter (fun kv => ¬(compsOf kv.1).isEmpty)).map leafFor) := by
  simpa [buildEntries, dfsFiles] using dfsFiles_buildEntries_aux l [] now

theorem find?_path_eq_some_iff (l : List FileEntry) (q : String) (a : FileEntry)
    (hnd : (l.map (fun f => f.path)).Nodup) :
    l.find? (fun f => f.path == q) = some a ↔ a ∈ l ∧ a.path = q := by
  constructor
  · intro h
    exact ⟨List.mem_of_find?_eq_some h, by simpa using List.find?_some h⟩
  · rintro ⟨hmem, hpath⟩
    induction l with
    | nil => cases hmem
    | cons b tl ih =>
      simp only [List.map_cons, List.nodup_cons] at hnd
      rcases List.mem_cons.mp hmem with hab | hatl
      · subst hab
        simp [List.find?, hpath]
      · have hbq : b.path ≠ q := by
          intro hbq
          exact hnd.1 (by
            rw [hbq, ← hpath]
            exact List.mem_map_of_mem (fun f => f.path) hatl)
        have : (b.path == q) = false := by simpa using hbq
        simp only [List.find?, this]
        exact ih hnd.2 hatl

theorem find?_path_perm (l₁ l₂ : List FileEntry) (hp : l₁.Perm l₂)
    (hnd : (l₁.map (fun f => f.path)).Nodup) (q : String) :
    l₁.find? (fun f => f.path == q) = l₂.find? (fun f => f.path == q) := by
  have hnd2 : (l₂.map (fun f => f.path)).Nodup := (hp.map _).nodup_iff.mp hnd
  cases h1 : l₁.find? (fun f => f.path == q) with
  | none =>
    rw [List.find?_eq_none] at h1
    symm
    rw [List.find?_eq_none]
    intro x hx
    exact h1 x (hp.mem_iff.mpr hx)
  | some a =>
    have := (find?_path_eq_some_iff l₁ q a hnd).mp h1
    symm
    exact (find?_path_eq_some_iff l₂ q a hnd2).mpr ⟨hp.subset this.1, this.2⟩

theorem find?_map_snd_eq_lookup (l : List (String × FileEntry)) (q : String)
    (hpaths : ∀ kv ∈ l, kv.2.path = kv.1) :
    (l.map (fun kv => kv.2)).find? (fun f => f.path == q) = l.lookup q := by
  induction l with
  | nil => rfl
  | cons kv tl ih =>
    have hp : kv.2.path = kv.1 := hpaths kv (List.mem_cons_self kv tl)
    simp only [List.map_cons, List.find?, List.lookup, hp]
    by_cases h : kv.1 = q
    · have h1 : (kv.1 == q) = true := by simpa using h
      have h2 : (q == kv.1) = true := by simpa using h.symm
      simp [h1, h2]
    · have h1 : (kv.1 == q) = false := by simpa using h
      have h2 : (q == kv.1) = false := by simpa using fun hh => h hh.symm
      simp only [h1, h2]
      exact ih (fun kv2 hkv2 => hpaths kv2 (List.mem_cons_of_mem kv hkv2))

theorem flatten_buildEntries_eq_lookup (l : List (String × FileEntry))
    (now : Nat) (q : String)
    (hkeys : (l.map (fun kv => kv.1)).Nodup)
    (hwf : ∀ kv ∈ l, kv.2.path = kv.1 ∧ compsOf kv.1 ≠ [] ∧
      (compsOf kv.1).getLastD "" = kv.2.name) :
    index_files_by_path (buildEntries l now) emptyIdx q = l.lookup q := by
  have hfilter : l.filter (fun kv => ¬(compsOf kv.1).isEmpty) = l := by
    apply List.filter_eq_self.mpr
    intro kv hkv
    simpa [List.isEmpty_iff] using (hwf kv hkv).2.1
  have hmap : l.map leafFor = l.map (fun kv => kv.2) := by
    apply List.map_congr_left
    intro kv hkv
    obtain ⟨hpath, _, hname⟩ := hwf kv hkv
    unfold leafFor leafOf
    rw [hname]
  have hperm0 := dfsFiles_buildEntries l now
  rw [hfilter, hmap] at hperm0
  have hperm : ((dfsFiles (buildEntries l now)).reverse).Perm
      (l.map (fun kv => kv.2)) :=
    ((dfsFiles (buildEntries l now)).reverse_perm).trans hperm0
  have hnd2 : ((l.map (fun kv => kv.2)).map (fun f => f.path)).Nodup := by
    have : (l.map (fun kv => kv.2)).map (fun f => f.path)
        = l.map (fun kv => kv.1) := by
      rw [List.map_map]
      exact List.map_congr_left (fun kv hkv => (hwf kv hkv).1)
    rw [this]
    exact hkeys
  have hnd1 : (((dfsFiles (buildEntries l now)).reverse).map
      (fun f => f.path)).Nodup := by
    exact ((hperm.map (fun f => f.path)).nodup_iff).mpr hnd2
  rw [index_files_by_path_char]
  simp only [emptyIdx, Option.or_none]
  rw [find?_path_perm _ _ hperm hnd1 q]
  exact find?_map_snd_eq_lookup l q (fun kv hkv => (hwf kv hkv).1)

theorem okPath_unreadable (files : List String) (subs : List (String × FsDir))
    (rr : List String) : okPath rr (FsDir.node false files subs) = false := by
  cases rr <;> simp [okPath]

theorem okPath_cache (files : List String) (subs : List (String × FsDir))
    (rr : List String) (h : hasCacheFile files = true) :
    okPath rr (FsDir.node true files subs) = true ↔ rr = [] := by
  cases rr <;> simp [okPath, h]

theorem okPath_descend (files : List String) (subs : List (String × FsDir))
    (rr : List String) (h : hasCacheFile files = false) :
    okPath rr (FsDir.node true files subs) = true ↔
      ∃ c rest2, rr = c :: rest2 ∧
        ∃ s ∈ subs, s.1 = c ∧ okPath rest2 s.2 = true := by
  cases rr with
  | nil => simp [okPath, h]
  | cons c rest2 =>
    simp only [okPath, h, Bool.not_false, Bool.true_and, Bool.and_eq_true,
      List.any_eq_true, beq_iff_eq]
    constructor
    · rintro ⟨s, hs, hc, hok⟩
      exact ⟨c, rest2, rfl, s, hs, hc, hok⟩
    · rintro ⟨c2, rest3, heq, s, hs, hc, hok⟩
      cases heq
      exact ⟨s, hs, hc, hok⟩

theorem findLoop_mem (q : List String) :
    ∀ st : List (List String × FsDir),
    q ∈ findLoop st ↔ ∃ e ∈ st, ∃ rr, q = e.1 ++ rr ∧ okPath rr e.2 = true := by
  intro st
  induction st using findLoop.induct with
  | case1 => simp [findLoop]
  | case2 p files subs rest ih =>
    rw [show findLoop ((p, FsDir.node false files subs) :: rest)
        = findLoop rest by simp [findLoop]]
    rw [ih]
    constructor
    · rintro ⟨e, he, rr, hq, hok⟩
      exact ⟨e, List.mem_cons_of_mem _ he, rr, hq, hok⟩
    · rintro ⟨e, he, rr, hq, hok⟩
      rcases List.mem_cons.mp he with rfl | he2
      · rw [okPath_unreadable] at hok
        cases hok
      · exact ⟨e, he2, rr, hq, hok⟩
  | case3 p r files subs rest hr hc ih =>
    have hrt : r = true := by revert hr; cases r <;> simp
    subst hrt
    rw [show findLoop ((p, FsDir.node true files subs) :: rest)
        = p :: findLoop rest by simp [findLoop, hc]]
    rw [List.mem_cons, ih]
    constructor
    · rintro (rfl | ⟨e, he, rr, hq, hok⟩)
      · exact ⟨(q, FsDir.node true files subs), List.mem_cons_self _ _,
          [], by simp, (okPath_cache files subs [] hc).mpr rfl⟩
      · exact ⟨e, List.mem_cons_of_mem _ he, rr, hq, hok⟩
    · rintro ⟨e, he, rr, hq, hok⟩
      rcases List.mem_cons.mp he with rfl | he2
      · left
        have := (okPath_cache files subs rr hc).mp hok
        subst this
        simpa using hq
      · right
        exact ⟨e, he2, rr, hq, hok⟩
  | case4 p r files subs rest hr hc ih =>
    have hrt : r = true := by revert hr; cases r <;> simp
    subst hrt
    have hcf : hasCacheFile files = false := by
      revert hc; cases hasCacheFile files <;> simp
    rw [show findLoop ((p, FsDir.node true files subs) :: rest)
        = findLoop ((subs.map (fun s => (p ++ [s.1], s.2))).reverse ++ rest) by
          simp [findLoop, hcf]]
    rw [ih]
    constructor
    · rintro ⟨e, he, rr, hq, hok⟩
      rcases List.mem_append.mp he with hpush | hrest
      · rw [List.mem_reverse, List.mem_map] at hpush
        obtain ⟨s, hs, rfl⟩ := hpush
        refine ⟨(p, FsDir.node true files subs), List.mem_cons_self _ _,
          s.1 :: rr, ?_, ?_⟩
        · simpa [List.append_assoc] using hq
        · exact (okPath_descend files subs (s.1 :: rr) hcf).mpr
            ⟨s.1, rr, rfl, s, hs, rfl, hok⟩
      · exact ⟨e, List.mem_cons_of_mem _ hrest, rr, hq, hok⟩
    · rintro ⟨e, he, rr, hq, hok⟩
      rcases List.mem_cons.mp he with rfl | he2
      · obtain ⟨c, rest2, rfl, s, hs, hsc, hok2⟩ :=
          (okPath_descend files subs rr hcf).mp hok
        refine ⟨(p ++ [s.1], s.2), ?_, rest2, ?_, hok2⟩
        · rw [List.mem_append, List.mem_reverse, List.mem_map]
          exact Or.inl ⟨s, hs, rfl⟩
        · rw [hsc]
          simpa [List.append_assoc] using hq
      · exact ⟨e, List.mem_append.mpr (Or.inr he2), rr, hq, hok⟩

theorem pathLe_trans : ∀ a b c, pathLe a b = true → pathLe b c = true →
    pathLe a c = true := by
  intro a
  induction a with
  | nil => intro b c _ _; rfl
  | cons x as2 ih =>
    intro b c hab hbc
    cases b with
    | nil => simp [pathLe] at hab
    | cons y bs =>
      cases c with
      | nil => simp [pathLe] at hbc
      | cons z cs =>
        simp only [pathLe] at hab hbc ⊢
        by_cases hxy : x = y
        · subst hxy
          simp only [if_pos rfl] at hab
          by_cases hyz : x = z
          · subst hyz
            simp only [if_pos rfl] at hbc ⊢
            exact ih bs cs hab hbc
          · simp only [if_neg hyz] at hbc ⊢
            exact hbc
        · simp only [if_neg hxy] at hab
          have hlt1 : x < y := by simpa using hab
          by_cases hyz : y = z
          · rw [← hyz]
            simp only [if_neg hxy]
            simpa using hlt1
          · simp only [if_neg hyz] at hbc
            have hlt2 : y < z := by simpa using hbc
            have hlt3 : x < z := lt_trans hlt1 hlt2
            simp only [if_neg (ne_of_lt hlt3)]
            simpa using hlt3

theorem pathLe_total : ∀ a b, pathLe a b = true ∨ pathLe b a = true := by
  intro a
  induction a with
  | nil => intro b; left; rfl
  | cons x as2 ih =>
    intro b
    cases b with
    | nil => right; rfl
    | cons y bs =>
      simp only [pathLe]
      by_cases hxy : x = y
      · subst hxy
        simpa using ih bs
      · have hyx : ¬y = x := fun h => hxy h.symm
        simp only [if_neg hxy, if_neg hyx]
        rcases lt_or_gt_of_ne hxy with h | h
        · left; simpa using h
        · right; simpa using h

theorem pathLe_antisymm : ∀ a b, pathLe a b = true → pathLe b a = true →
    a = b := by
  intro a
  induction a with
  | nil =>
    intro b _ hba
    cases b with
    | nil => rfl
    | cons y bs => simp [pathLe] at hba
  | cons x as2 ih =>
    intro b hab hba
    cases b with
    | nil => simp [pathLe] at hab
    | cons y bs =>
      simp only [pathLe] at hab hba
      by_cases hxy : x = y
      · subst hxy
        simp only [if_pos rfl] at hab hba
        rw [ih bs hab hba]
      · have hyx : ¬y = x := fun h => hxy h.symm
        simp only [if_neg hxy] at hab
        simp only [if_neg hyx] at hba
        have h1 : x < y := by simpa using hab
        have h2 : y < x := by simpa using hba
        exact absurd h2 (not_lt_of_gt h1)

theorem dedupConsec_sublist : ∀ l, (dedupConsec l).Sublist l := by
  intro l
  induction l using dedupConsec.induct with
  | case1 => simp [dedupConsec]
  | case2 a => simp [dedupConsec]
  | case3 a tl ih =>
    rw [show dedupConsec (a :: a :: tl) = dedupConsec (a :: tl) by
      simp [dedupConsec]]
    exact ih.trans ((List.sublist_cons_self a tl).cons_cons a)
  | case4 a b tl hab ih =>
    rw [show dedupConsec (a :: b :: tl) = a :: dedupConsec (b :: tl) by
      simp [dedupConsec, hab]]
    exact ih.cons_cons a

theorem mem_dedupConsec : ∀ l x, x ∈ dedupConsec l ↔ x ∈ l := by
  intro l
  induction l using dedupConsec.induct with
  | case1 => intro x; simp [dedupConsec]
  | case2 a => intro x; simp [dedupConsec]
  | case3 a tl ih =>
    intro x
    rw [show dedupConsec (a :: a :: tl) = dedupConsec (a :: tl) by
      simp [dedupConsec]]
    rw [ih x]
    simp [List.mem_cons]
  | case4 a b tl hab ih =>
    intro x
    rw [show dedupConsec (a :: b :: tl) = a :: dedupConsec (b :: tl) by
      simp [dedupConsec, hab]]
    simp only [List.mem_cons, ih x]

theorem dedupConsec_cons : ∀ (n : Nat) (b : List String)
    (tl : List (List String)), tl.length ≤ n →
    ∃ t2, dedupConsec (b :: tl) = b :: t2 := by
  intro n
  induction n with
  | zero =>
    intro b tl hlen
    rw [List.length_eq_zero.mp (Nat.le_zero.mp hlen)]
    exact ⟨[], by simp [dedupConsec]⟩
  | succ n ih =>
    intro b tl hlen
    cases tl with
    | nil => exact ⟨[], by simp [dedupConsec]⟩
    | cons c tl2 =>
      by_cases hbc : b = c
      · subst hbc
        rw [show dedupConsec (b :: b :: tl2) = dedupConsec (b :: tl2) by
          simp [dedupConsec]]
        exact ih b tl2 (by simpa using Nat.le_of_succ_le_succ hlen)
      · exact ⟨dedupConsec (c :: tl2), by simp [dedupConsec, hbc]⟩

theorem dedupConsec_chain_ne : ∀ l,
    (dedupConsec l).Chain' (fun x y => x ≠ y) := by
  intro l
  induction l using dedupConsec.induct with
  | case1 => simp [dedupConsec]
  | case2 a => simp [dedupConsec]
  | case3 a tl ih =>
    rw [show dedupConsec (a :: a :: tl) = dedupConsec (a :: tl) by
      simp [dedupConsec]]
    exact ih
  | case4 a b tl hab ih =>
    rw [show dedupConsec (a :: b :: tl) = a :: dedupConsec (b :: tl) by
      simp [dedupConsec, hab]]
    obtain ⟨t2, ht2⟩ := dedupConsec_cons tl.length b tl (le_refl _)
    rw [ht2]
    rw [ht2] at ih
    exact List.Chain'.cons hab ih

theorem nodup_of_sorted_chain : ∀ l : List (List String),
    List.Pairwise (fun a b => pathLe a b = true) l →
    l.Chain' (fun x y => x ≠ y) → l.Nodup := by
  intro l
  induction l with
  | nil => intro _ _; exact List.nodup_nil
  | cons a t ih =>
    intro hpw hch
    rw [List.pairwise_cons] at hpw
    refine List.nodup_cons.mpr ⟨?_, ih hpw.2 hch.tail⟩
    intro hmem
    cases t with
    | nil => cases hmem
    | cons b t2 =>
      have hne : a ≠ b := (List.chain'_cons.mp hch).1
      rcases List.mem_cons.mp hmem with rfl | hmem2
      · exact hne rfl
      · have hba : pathLe b a = true :=
          (List.pairwise_cons.mp hpw.2).1 a hmem2
        have hab : pathLe a b = true := hpw.1 b (List.mem_cons_self b t2)
        exact hne (pathLe_antisymm a b hab hba)

theorem option_map_or {α β : Type} (x y : Option α) (g : α → β) :
    (x.or y).map g = (x.map g).or (y.map g) := by
  cases x <;> rfl

theorem rebase_walk_char (nodes : List Node) :
    ∀ (base : String) (m : String → Option FileEntry) (q : String),
    rebase_walk base nodes m q =
      (((dfsFiles nodes).reverse.find?
          (fun f => joinPath base f.path == q)).map
        (fun f => { f with path := joinPath base f.path })).or (m q) := by
  induction nodes using dfsFiles.induct with
  | case1 => intro base m q; simp [rebase_walk, dfsFiles]
  | case2 _ _ _ entries tl ih1 ih2 =>
    intro base m q
    simp only [rebase_walk, dfsFiles]
    rw [ih2, ih1]
    simp [List.find?_append, option_map_or, Option.or_assoc]
  | case3 f tl ih =>
    intro base m q
    simp only [rebase_walk, dfsFiles]
    rw [ih]
    simp only [List.reverse_cons, List.find?_append, option_map_or,
      Option.or_assoc]
    congr 1
    by_cases h : q = joinPath base f.path
    · simp [List.find?, h]
    · have h2 : (joinPath base f.path == q) = false := by
        simp [beq_eq_false_iff_ne]
        exact fun hh => h hh.symm
      simp [List.find?, h2, h]

theorem regenerateFile_some (rel name h : String) (rd : Option String)
    (p : String → Option Unit) (g : Option Doc) (now : Nat)
    (fe : FileEntry)
    (hf : regenerateFile rel name h rd p g now = some fe) :
    fe.name = name ∧ fe.path = rel ∧ fe.hash = h := by
  unfold regenerateFile at hf
  cases rd with
  | none => simp at hf
  | some s =>
    dsimp only at hf
    cases hp : p s with
    | none => rw [hp] at hf; simp at hf
    | some u =>
      rw [hp] at hf
      dsimp only at hf
      injection hf with h2
      rw [← h2]
      exact ⟨rfl, rfl, rfl⟩

theorem regenerateFile_none_shift (rel name h : String) (rd : Option String)
    (p : String → Option Unit) (g g2 : Option Doc) (now now2 : Nat)
    (hf : regenerateFile rel name h rd p g now = none) :
    regenerateFile rel name h rd p g2 now2 = none := by
  unfold regenerateFile at hf ⊢
  cases rd with
  | none => rfl
  | some s =>
    dsimp only at hf ⊢
    cases hp : p s with
    | none => rfl
    | some u => rw [hp] at hf; simp at hf

theorem processFile_some (idx : String → Option FileEntry) (force : Bool)
    (rel name h : String) (rd : Option String) (p : String → Option Unit)
    (g : Option Doc) (now : Nat) (fe : FileEntry)
    (hf : processFile idx force rel name h rd p g now = some fe) :
    fe.name = name ∧ fe.path = rel ∧ fe.hash = h := by
  unfold processFile at hf
  cases hidx : idx rel with
  | none =>
    rw [hidx] at hf
    exact regenerateFile_some rel name h rd p g now fe hf
  | some prev =>
    rw [hidx] at hf
    dsimp only at hf
    by_cases hc : force = false ∧ prev.hash = h ∧ prev.doc.fileDescription ≠ ""
    · rw [if_pos hc] at hf
      injection hf with h2
      rw [← h2]
      exact ⟨rfl, rfl, rfl⟩
    · rw [if_neg hc] at hf
      exact regenerateFile_some rel name h rd p g now fe hf

theorem processFile_none (idx : String → Option FileEntry) (force : Bool)
    (rel name h : String) (rd : Option String) (p : String → Option Unit)
    (g : Option Doc) (now : Nat)
    (hf : processFile idx force rel name h rd p g now = none) :
    regenerateFile rel name h rd p g now = none := by
  unfold processFile at hf
  cases hidx : idx rel with
  | none =>
    rw [hidx] at hf
    exact hf
  | some prev =>
    rw [hidx] at hf
    dsimp only at hf
    by_cases hc : force = false ∧ prev.hash = h ∧ prev.doc.fileDescription ≠ ""
    · rw [if_pos hc] at hf
      cases hf
    · rw [if_neg hc] at hf
      exact hf

theorem processWalk_keys (idx : String → Option FileEntry) (force : Bool)
    (render : String → Option String) (parseTpl : String → Option Unit)
    (gen : String → Option Doc) (now : Nat) : ∀ items : List WalkItem,
    (processWalk idx force render parseTpl gen now items).map
        (fun kv => kv.1) =
      (items.filter (walkKept idx force render parseTpl gen now)).map
        (fun w => w.rel) := by
  intro items
  induction items with
  | nil => rfl
  | cons w tl ih =>
    cases hw : w.hashResult with
    | none => simp [processWalk, hw, List.filter_cons, walkKept, ih]
    | some h =>
      cases hres : processFile idx force w.rel w.name h (render w.rel)
          parseTpl (gen w.rel) now with
      | none =>
        simp [processWalk, hw, hres, List.filter_cons, walkKept, ih]
      | some fe =>
        simp [processWalk, hw, hres, List.filter_cons, walkKept, ih]

theorem processWalk_mem (idx : String → Option FileEntry) (force : Bool)
    (render : String → Option String) (parseTpl : String → Option Unit)
    (gen : String → Option Doc) (now : Nat) :
    ∀ (items : List WalkItem) (kv : String × FileEntry),
    kv ∈ processWalk idx force render parseTpl gen now items →
    ∃ w ∈ items, ∃ h, w.hashResult = some h ∧ kv.1 = w.rel ∧
      processFile idx force w.rel w.name h (render w.rel) parseTpl
        (gen w.rel) now = some kv.2 := by
  intro items
  induction items with
  | nil => intro kv hkv; cases hkv
  | cons w tl ih =>
    intro kv hkv
    cases hw : w.hashResult with
    | none =>
      rw [show processWalk idx force render parseTpl gen now (w :: tl)
          = processWalk idx force render parseTpl gen now tl by
        simp [processWalk, hw]] at hkv
      obtain ⟨w2, hw2, h, hh, hrel, hres⟩ := ih kv hkv
      exact ⟨w2, List.mem_cons_of_mem w hw2, h, hh, hrel, hres⟩
    | some h =>
      cases hres : processFile idx force w.rel w.name h (render w.rel)
          parseTpl (gen w.rel) now with
      | none =>
        rw [show processWalk idx force render parseTpl gen now (w :: tl)
            = processWalk idx force render parseTpl gen now tl by
          simp [processWalk, hw, hres]] at hkv
        obtain ⟨w2, hw2, h2, hh2, hrel, hres2⟩ := ih kv hkv
        exact ⟨w2, List.mem_cons_of_mem w hw2, h2, hh2, hrel, hres2⟩
      | some fe =>
        rw [show processWalk idx force render parseTpl gen now (w :: tl)
            = (w.rel, fe) ::
              processWalk idx force render parseTpl gen now tl by
          simp [processWalk, hw, hres]] at hkv
        rcases List.mem_cons.mp hkv with rfl | hkv2
        · exact ⟨w, List.mem_cons_self w tl, h, hw, rfl, hres⟩
        · obtain ⟨w2, hw2, h2, hh2, hrel, hres2⟩ := ih kv hkv2
          exact ⟨w2, List.mem_cons_of_mem w hw2, h2, hh2, hrel, hres2⟩

theorem processWalk_mem_of (idx : String → Option FileEntry) (force : Bool)
    (render : String → Option String) (parseTpl : String → Option Unit)
    (gen : String → Option Doc) (now : Nat) :
    ∀ (items : List WalkItem) (w : WalkItem) (h : String) (fe : FileEntry),
    w ∈ items → w.hashResult = some h →
    processFile idx force w.rel w.name h (render w.rel) parseTpl
      (gen w.rel) now = some fe →
    (w.rel, fe) ∈ processWalk idx force render parseTpl gen now items := by
  intro items
  induction items with
  | nil => intro w h fe hw _ _; cases hw
  | cons w0 tl ih =>
    intro w h fe hw hh hres
    rcases List.mem_cons.mp hw with rfl | hwtl
    · rw [show processWalk idx force render parseTpl gen now (w :: tl)
          = (w.rel, fe) :: processWalk idx force render parseTpl gen now tl
          by simp [processWalk, hh, hres]]
      exact List.mem_cons_self _ _
    · cases hw0 : w0.hashResult with
      | none =>
        rw [show processWalk idx force render parseTpl gen now (w0 :: tl)
            = processWalk idx force render parseTpl gen now tl by
          simp [processWalk, hw0]]
        exact ih w h fe hwtl hh hres
      | some h0 =>
        cases hres0 : processFile idx force w0.rel w0.name h0 (render w0.rel)
            parseTpl (gen w0.rel) now with
        | none =>
          rw [show processWalk idx force render parseTpl gen now (w0 :: tl)
              = processWalk idx force render parseTpl gen now tl by
            simp [processWalk, hw0, hres0]]
          exact ih w h fe hwtl hh hres
        | some fe0 =>
          rw [show processWalk idx force render parseTpl gen now (w0 :: tl)
              = (w0.rel, fe0) ::
                processWalk idx force render parseTpl gen now tl by
            simp [processWalk, hw0, hres0]]
          exact List.mem_cons_of_mem _ (ih w h fe hwtl hh hres)

theorem processWalk_congr (idxA idxB : String → Option FileEntry)
    (fA fB : Bool) (renderA renderB : String → Option String)
    (pA pB : String → Option Unit) (genA genB : String → Option Doc)
    (nowA nowB : Nat) :
    ∀ items : List WalkItem,
    (∀ w ∈ items, ∀ h, w.hashResult = some h →
      processFile idxA fA w.rel w.name h (renderA w.rel) pA (genA w.rel)
          nowA =
        processFile idxB fB w.rel w.name h (renderB w.rel) pB (genB w.rel)
          nowB) →
    processWalk idxA fA renderA pA genA nowA items =
      processWalk idxB fB renderB pB genB nowB items := by
  intro items
  induction items with
  | nil => intro _; rfl
  | cons w tl ih =>
    intro hcong
    have htl := ih (fun w2 hw2 => hcong w2 (List.mem_cons_of_mem w hw2))
    cases hw : w.hashResult with
    | none => simp [processWalk, hw, htl]
    | some h =>
      have hEq := hcong w (List.mem_cons_self w tl) h hw
      cases hres : processFile idxA fA w.rel w.name h (renderA w.rel) pA
          (genA w.rel) nowA with
      | none =>
        have hresB := hEq.symm.trans hres
        simp [processWalk, hw, hres, hresB, htl]
      | some fe =>
        have hresB := hEq.symm.trans hres
        simp [processWalk, hw, hres, hresB, htl]

theorem lookup_eq_none_of_not_mem (l : List (String × FileEntry)) :
    ∀ k : String, k ∉ l.map (fun kv => kv.1) → l.lookup k = none := by
  induction l with
  | nil => intro k _; rfl
  | cons kv tl ih =>
    intro k hk
    simp only [List.map_cons, List.mem_cons, not_or] at hk
    have hbeq : (k == kv.1) = false := by simpa using hk.1
    rw [show (kv :: tl).lookup k = tl.lookup k by
      cases kv; simp [List.lookup, hbeq]]
    exact ih k hk.2

theorem lookup_of_mem_nodup (l : List (String × FileEntry)) :
    ∀ (k : String) (v : FileEntry), (l.map (fun kv => kv.1)).Nodup →
    (k, v) ∈ l → l.lookup k = some v := by
  induction l with
  | nil => intro k v _ hm; cases hm
  | cons kv0 tl ih =>
    intro k v hnd hm
    simp only [List.map_cons, List.nodup_cons] at hnd
    rcases List.mem_cons.mp hm with heq | hmtl
    · rw [← heq]
      simp [List.lookup]
    · have hne : k ≠ kv0.1 := by
        intro hk
        apply hnd.1
        rw [hk] at hmtl
        exact List.mem_map_of_mem (fun kv => kv.1) hmtl
      have hbeq : (k == kv0.1) = false := by simpa using hne
      rw [show (kv0 :: tl).lookup k = tl.lookup k by
        cases kv0; simp [List.lookup, hbeq]]
      exact ih k v hnd.2 hmtl

theorem flatLookup_eq_none (l : List (String × FileEntry)) (q : String)
    (h : q ∉ l.map (fun kv => kv.1)) : flatLookup l q = none := by
  unfold flatLookup
  rw [show l.reverse.find? (fun kv => kv.1 == q) = none from ?_]
  · rfl
  · rw [List.find?_eq_none]
    intro kv hkv
    simp only [beq_iff_eq]
    intro hq
    apply h
    rw [← hq]
    exact List.mem_map_of_mem (fun kv => kv.1) (List.mem_reverse.mp hkv)

theorem flatLookup_cons (k : String) (v : FileEntry)
    (tl : List (String × FileEntry)) (q : String) :
    flatLookup ((k, v) :: tl) q =
      (flatLookup tl q).or (if k = q then some v else none) := by
  unfold flatLookup
  rw [List.reverse_cons, List.find?_append, option_map_or]
  congr 1
  by_cases h : k = q
  · simp [List.find?, h]
  · have h2 : (k == q) = false := by simpa using h
    simp [List.find?, h2, h]

theorem flatten_buildEntries_none (l : List (String × FileEntry)) (now : Nat)
    (q : String) (hq : ∀ kv ∈ l, kv.2.path ≠ q) :
    index_files_by_path (buildEntries l now) emptyIdx q = none := by
  rw [index_files_by_path_char]
  simp only [emptyIdx, Option.or_none]
  rw [List.find?_eq_none]
  intro f hf
  have hf2 : f ∈ dfsFiles (buildEntries l now) := List.mem_reverse.mp hf
  have hperm := dfsFiles_buildEntries l now
  have hf3 := hperm.mem_iff.mp hf2
  rw [List.mem_map] at hf3
  obtain ⟨kv, hkv, rfl⟩ := hf3
  have hkv2 : kv ∈ l := List.mem_of_mem_filter hkv
  simp only [leafFor, leafOf, beq_iff_eq]
  exact hq kv hkv2

theorem dirsOk_append (a b : List Node) :
    dirsOk (a ++ b) = (dirsOk a && dirsOk b) := by
  induction a using dirsOk.induct with
  | case1 => simp [dirsOk]
  | case2 name path t entries tl ih1 ih2 =>
    simp [dirsOk, ih2, Bool.and_assoc]
  | case3 f tl ih => simp [dirsOk, ih]

theorem dirsOk_insertIntoDir (f : List Node → List Node) (c : String)
    (now : Nat) (hf : ∀ es, dirsOk es = true → dirsOk (f es) = true) :
    ∀ es, dirsOk es = true → dirsOk (insertIntoDir f c now es) = true := by
  intro es
  induction es using insertIntoDir.induct f c now with
  | case1 =>
    intro _
    simp [insertIntoDir, dirsOk, hf [] (by simp [dirsOk])]
  | case2 path t entries tl =>
    intro hok
    rw [show insertIntoDir f c now (Node.dir c path t entries :: tl)
        = Node.dir c path now (f entries) :: tl by simp [insertIntoDir]]
    simp only [dirsOk, Bool.and_eq_true] at hok ⊢
    exact ⟨⟨hok.1.1, hf entries hok.1.2⟩, hok.2⟩
  | case3 name path t entries tl hname ih =>
    intro hok
    rw [show insertIntoDir f c now (Node.dir name path t entries :: tl)
        = Node.dir name path t entries :: insertIntoDir f c now tl by
      simp [insertIntoDir, hname]]
    simp only [dirsOk, Bool.and_eq_true] at hok ⊢
    exact ⟨hok.1, ih hok.2⟩
  | case4 g tl ih =>
    intro hok
    simp only [insertIntoDir, dirsOk] at hok ⊢
    exact ih hok

theorem dirsOk_insert_recursive (comps : List String) :
    ∀ (fe : FileEntry) (now : Nat) (es : List Node),
    dirsOk es = true → dirsOk (insert_recursive comps fe now es) = true := by
  induction comps with
  | nil => intro fe now es hok; exact hok
  | cons c rest ih =>
    intro fe now es hok
    cases rest with
    | nil =>
      simp only [insert_recursive]
      rw [dirsOk_append]
      simp [dirsOk, hok]
    | cons c2 rest2 =>
      simp only [insert_recursive]
      exact dirsOk_insertIntoDir _ c now (fun es2 => ih fe now es2) es hok

/-- C1 counterexample: a walked file with no index entry (a new file) whose
template render fails is skipped — `processFile` produces no entry at all —
whereas the claim demands that every non-reused file be regenerated, which
would mean an entry stamped `now` with the default empty `Doc`. -/
theorem c1_counterexample :
    processFile emptyIdx false "n.txt" "n.txt" "h7" none exParseOk none 9
      = none ∧
    (none : Option FileEntry) ≠
      some ⟨"n.txt", "n.txt", "h7", 9, ⟨"", none, ""⟩⟩ := by
  constructor
  · rfl
  · intro hcon
    cases hcon

/-- C1 amended: the previous cache entry is reused iff an entry for the
relative path exists in the merged index, the force flag is not set, the
stored hash equals the freshly computed hash, and the stored description is
non-empty; on reuse the produced entry keeps the previous `updated_at` and
`doc` unchanged. In every other case regeneration is attempted, not
guaranteed: a template render failure or a parse failure of the rendered
template skips the file with no entry, and only when both succeed is a
regenerated entry produced, stamped `now`, with the annotation outcome (or
the default empty `Doc` on failure). -/
theorem c1_reuse_decision (idx : String → Option FileEntry) (force : Bool)
    (rel name h : String) (render : Option String)
    (parseTpl : String → Option Unit) (gen : Option Doc) (now : Nat) :
    (∀ prev, idx rel = some prev →
      processFile idx force rel name h render parseTpl gen now =
        (if force = false ∧ prev.hash = h ∧ prev.doc.fileDescription ≠ ""
         then some ⟨name, rel, h, prev.updated_at, prev.doc⟩
         else regenerateFile rel name h render parseTpl gen now))
  ∧ (idx rel = none →
      processFile idx force rel name h render parseTpl gen now =
        regenerateFile rel name h render parseTpl gen now)
  ∧ (render = none →
      regenerateFile rel name h render parseTpl gen now = none)
  ∧ (∀ s, render = some s → parseTpl s = none →
      regenerateFile rel name h render parseTpl gen now = none)
  ∧ (∀ s u, render = some s → parseTpl s = some u →
      regenerateFile rel name h render parseTpl gen now =
        some ⟨name, rel, h, now, gen.getD default⟩) := by
  refine ⟨?_, ?_, ?_, ?_, ?_⟩
  · intro prev hprev
    unfold processFile
    rw [hprev]
  · intro hnone
    unfold processFile
    rw [hnone]
  · intro hrd
    unfold regenerateFile
    rw [hrd]
  · intro s hrd hp
    unfold regenerateFile
    rw [hrd]
    dsimp only
    rw [hp]
  · intro s u hrd hp
    unfold regenerateFile
    rw [hrd]
    dsimp only
    rw [hp]

/-- Witness for C1: a concrete clean file (entry present, no force, equal
hash, non-empty description) is reused with its original timestamp 3 and
doc, and a concrete successful template stage yields the regenerated entry
for a new file. -/
theorem c1_reuse_decision_witness :
    processFile exIdx false "a/b.txt" "b.txt" "h1" (some "tpl") exParseOk
        none 9 = some ⟨"b.txt", "a/b.txt", "h1", 3, exDoc⟩ ∧
    regenerateFile "n.txt" "n.txt" "h7" (some "tpl") exParseOk none 9 =
      some ⟨"n.txt", "n.txt", "h7", 9, ⟨"", none, ""⟩⟩ := by
  constructor
  · have h := (c1_reuse_decision exIdx false "a/b.txt" "b.txt" "h1"
      (some "tpl") exParseOk none 9).1 exPrev (by simp [exIdx])
    rw [h, if_pos ⟨rfl, rfl, by simp [exPrev, exDoc]⟩]
    rfl
  · have h := (c1_reuse_decision exIdx false "n.txt" "n.txt" "h7"
      (some "tpl") exParseOk none 9).2.2.2.2 "tpl" () rfl rfl
    rw [h]
    rfl

/-- C5 counterexample: with successful serialization and a failing
`fs::write`, the driver's final persistence step returns `Ok(())` — the write
error is logged and swallowed, not propagated, so the run does not abort. -/
theorem c5_counterexample :
    mainFinalize (Except.ok "body") exWrFail = Except.ok () ∧
      (Except.ok () : Except String Unit) ≠ Except.error "disk full" := by
  constructor
  · rfl
  · intro h
    cases h

/-- C5 amended: the cache-store `write_tree` propagates both serialization
errors and the write effect's own result (hence its errors) to its caller;
the driver's final step propagates a serialization failure but always
returns success once serialization succeeded, whatever the file write
returned. -/
theorem c5_write_error_handling :
    (∀ (e : String) (wr : String → Except String Unit),
      write_tree (Except.error e) wr = Except.error e)
  ∧ (∀ (s : String) (wr : String → Except String Unit),
      write_tree (Except.ok s) wr = wr (s ++ "\n"))
  ∧ (∀ (e : String) (wr : String → Except String Unit),
      mainFinalize (Except.error e) wr = Except.error e)
  ∧ (∀ (s : String) (wr : String → Except String Unit),
      mainFinalize (Except.ok s) wr = Except.ok ()) := by
  refine ⟨fun e wr => rfl, fun s wr => rfl, fun e wr => rfl, fun s wr => ?_⟩
  cases hwr : wr (s ++ "\n") <;> simp [mainFinalize, hwr]

/-- C6: on any read or parse failure, `load_existing_tree` returns a fresh
`DirdocsRoot` labelled with the relative path from cwd to the root (`"."`
when that diff is undefined or empty) and an empty entry list, propagating no
error (the function is total with no error channel); when read and parse both
succeed it returns the parsed tree unchanged. -/
theorem c6_load_fail_open (readRes : Option String)
    (parse : String → Option DirdocsRoot) (diff : Option String) (now : Nat) :
    (readRes = none →
      load_existing_tree readRes parse diff now = ⟨rel_label diff, now, []⟩)
  ∧ (∀ s, readRes = some s → parse s = none →
      load_existing_tree readRes parse diff now = ⟨rel_label diff, now, []⟩)
  ∧ (∀ s t, readRes = some s → parse s = some t →
      load_existing_tree readRes parse diff now = t)
  ∧ (diff = none → rel_label diff = ".")
  ∧ (diff = some "" → rel_label diff = ".")
  ∧ (∀ s, s ≠ "" → diff = some s → rel_label diff = s) := by
  refine ⟨?_, ?_, ?_, ?_, ?_, ?_⟩
  · intro h
    rw [h]
    rfl
  · intro s hs hp
    rw [hs]
    simp [load_existing_tree, hp]
  · intro s t hs hp
    rw [hs]
    simp [load_existing_tree, hp]
  · intro h
    rw [h]
    rfl
  · intro h
    rw [h]
    rfl
  · intro s hne hd
    rw [hd]
    simp [rel_label, hne]

/-- Witness for C6: a concrete failed read yields the fresh empty tree
labelled by the concrete diff "sub". -/
theorem c6_load_fail_open_witness :
    load_existing_tree none exParseNone (some "sub") 5 =
      ⟨"sub", 5, ([] : List Node)⟩ := by
  have h := (c6_load_fail_open none exParseNone (some "sub") 5).1 rfl
  rw [h]
  rfl

/-- C7: the cache index over a forest is its depth-first traversal: every
`File` node's `path` becomes a key mapped to that entry, `Dir` nodes are
traversed but never inserted (keys not carried by any `File` map to `none`),
and between two `File` nodes with the same path the later-visited one wins —
formally, indexing from the empty map equals finding the last match in the
depth-first file list. -/
theorem c7_index_dfs_last_wins (nodes : List Node) (q : String) :
    index_files_by_path nodes emptyIdx q =
      (dfsFiles nodes).reverse.find? (fun f => f.path == q) := by
  rw [index_files_by_path_char]
  simp [emptyIdx]

/-- C10: rebasing a discovered child cache into the merged index after the
root cache has been indexed performs a plain map insert per child file under
the joined key, so the merged index prefers the child entry (with its
rewritten path) over the root entry whenever both carry the same key, and
falls back to the root index otherwise. -/
theorem c10_child_cache_precedence (rootNodes : List Node)
    (tree : DirdocsRoot) (base : String) (q : String) :
    rebase_child_tree_into_existing_by_path base tree
        (index_files_by_path rootNodes emptyIdx) q =
      (((dfsFiles tree.entries).reverse.find?
          (fun f => joinPath base f.path == q)).map
        (fun f => { f with path := joinPath base f.path })).or
        (index_files_by_path rootNodes emptyIdx q) := by
  unfold rebase_child_tree_into_existing_by_path
  exact rebase_walk_char tree.entries base _ q

/-- C3 counterexample: the flat map [("a", entry)] whose entry has path "a"
equal to its key (a well-formed single normal component) but name "zzz" is
not restored by flatten-after-build: the rebuilt leaf is renamed to the last
path component "a", so the resulting map differs from the original. -/
theorem c3_counterexample :
    index_files_by_path (buildEntries exFlatBadName 0) emptyIdx "a" ≠
      exFlatBadName.lookup "a" := by
  have hc : compsOf "a" = ["a"] := by decide
  simp [exFlatBadName, buildEntries, insert_file_into_tree, hc,
    insert_recursive, leafOf, index_files_by_path, emptyIdx, List.lookup]

/-- C3 amended: for every flat map with distinct well-formed keys (non-empty
normal component lists, entry path equal to its key) whose entries' names
moreover equal the last component of their keys, flattening the built tree
via the cache index restores exactly the original map (pointwise lookup
equality). -/
theorem c3_roundtrip (l : List (String × FileEntry)) (now : Nat)
    (hkeys : (l.map (fun kv => kv.1)).Nodup)
    (hwf : ∀ kv ∈ l, kv.2.path = kv.1 ∧ compsOf kv.1 ≠ [] ∧
      (compsOf kv.1).getLastD "" = kv.2.name) :
    ∀ q, index_files_by_path (buildEntries l now) emptyIdx q = l.lookup q :=
  fun q => flatten_buildEntries_eq_lookup l now q hkeys hwf

/-- Witness for C3: a concrete one-entry well-formed map round-trips at its
key. -/
theorem c3_roundtrip_witness :
    index_files_by_path (buildEntries exFlat 7) emptyIdx "a/b.txt" =
      exFlat.lookup "a/b.txt" :=
  c3_roundtrip exFlat 7 (by decide) (by decide) "a/b.txt"

/-- C9 counterexample: inserting "a/b/c.txt" into an empty forest creates the
inner directory — reached via the components a/b — with path label "b"
(its single creating component), not the claimed full label "a/b". -/
theorem c9_counterexample :
    dirLabels (insert_file_into_tree [] "a/b/c.txt" exFe 7) =
      [("a", "a"), ("b", "b")] ∧ ("b" : String) ≠ "a/b" := by
  constructor
  · have hc : compsOf "a/b/c.txt" = ["a", "b", "c.txt"] := by decide
    simp [insert_file_into_tree, hc, insert_recursive, insertIntoDir,
      leafOf, dirLabels]
  · decide

/-- C9 amended: every `Dir` node created by the tree builder carries as its
`path` label the single component by which it was created — equal to its own
`name` (for a directory reached via a/b the label is "b") — and insertion
preserves this invariant over the whole forest. -/
theorem c9_dir_label_is_own_name (es : List Node) (rel : String)
    (fe : FileEntry) (now : Nat) (h : dirsOk es = true) :
    dirsOk (insert_file_into_tree es rel fe now) = true := by
  show dirsOk (if (compsOf rel).isEmpty then es
      else insert_recursive (compsOf rel) fe now es) = true
  split
  · exact h
  · exact dirsOk_insert_recursive _ fe now es h

/-- Witness for C9: the insertion of a concrete nested path into the empty
forest keeps every directory labelled by its own name. -/
theorem c9_dir_label_is_own_name_witness :
    dirsOk (insert_file_into_tree [] "a/b/c.txt" exFe 7) = true :=
  c9_dir_label_is_own_name [] "a/b/c.txt" exFe 7 (by simp [dirsOk])

theorem flatLookup_processWalk (idx : String → Option FileEntry)
    (force : Bool) (render : String → Option String)
    (parseTpl : String → Option Unit) (gen : String → Option Doc)
    (now : Nat) :
    ∀ items : List WalkItem, (items.map (fun w => w.rel)).Nodup →
    ∀ v ∈ items, ∀ h, v.hashResult = some h →
    flatLookup (processWalk idx force render parseTpl gen now items) v.rel =
      processFile idx force v.rel v.name h (render v.rel) parseTpl
        (gen v.rel) now := by
  intro items
  induction items with
  | nil => intro _ v hv; cases hv
  | cons w0 tl ih =>
    intro hnd v hv h hh
    simp only [List.map_cons, List.nodup_cons] at hnd
    rcases List.mem_cons.mp hv with rfl | hvtl
    · have hnone : flatLookup
          (processWalk idx force render parseTpl gen now tl) v.rel
          = none := by
        apply flatLookup_eq_none
        rw [processWalk_keys]
        intro hmem
        apply hnd.1
        rw [List.mem_map] at hmem
        obtain ⟨u, hu, hur⟩ := hmem
        rw [← hur]
        exact List.mem_map_of_mem (fun w => w.rel)
          (List.mem_of_mem_filter hu)
      cases hres : processFile idx force v.rel v.name h (render v.rel)
          parseTpl (gen v.rel) now with
      | none =>
        rw [show processWalk idx force render parseTpl gen now (v :: tl)
            = processWalk idx force render parseTpl gen now tl by
          simp [processWalk, hh, hres]]
        rw [hnone]
      | some fe =>
        rw [show processWalk idx force render parseTpl gen now (v :: tl)
            = (v.rel, fe) ::
              processWalk idx force render parseTpl gen now tl by
          simp [processWalk, hh, hres]]
        rw [flatLookup_cons, hnone]
        simp
    · have hrec := ih hnd.2 v hvtl h hh
      cases hw0 : w0.hashResult with
      | none =>
        rw [show processWalk idx force render parseTpl gen now (w0 :: tl)
            = processWalk idx force render parseTpl gen now tl by
          simp [processWalk, hw0]]
        exact hrec
      | some h0 =>
        cases hres0 : processFile idx force w0.rel w0.name h0 (render w0.rel)
            parseTpl (gen w0.rel) now with
        | none =>
          rw [show processWalk idx force render parseTpl gen now (w0 :: tl)
              = processWalk idx force render parseTpl gen now tl by
            simp [processWalk, hw0, hres0]]
          exact hrec
        | some fe0 =>
          rw [show processWalk idx force render parseTpl gen now (w0 :: tl)
              = (w0.rel, fe0) ::
                processWalk idx force render parseTpl gen now tl by
            simp [processWalk, hw0, hres0]]
          rw [flatLookup_cons, hrec]
          have hne : ¬w0.rel = v.rel := fun he =>
            hnd.1 (he ▸ List.mem_map_of_mem (fun w => w.rel) hvtl)
          rw [if_neg hne, Option.or_none]

/-- C4: a file whose hashing fails is skipped entirely: no entry under its
relative path appears in the flat `updated_files` map, and since the tree is
rebuilt from that flat map alone, no entry under that path survives into the
newly built tree (a previously cached one included); every other walked file
is still processed normally, i.e. its presence in and value under the flat
map is exactly the outcome of its own per-file state machine (reuse,
regenerate, or template-stage skip). -/
theorem c4_hash_failure_skips (items : List WalkItem)
    (idx : String → Option FileEntry) (force : Bool)
    (render : String → Option String) (parseTpl : String → Option Unit)
    (gen : String → Option Doc) (now : Nat) (w : WalkItem)
    (hw : w ∈ items) (hfail : w.hashResult = none)
    (hnd : (items.map (fun w => w.rel)).Nodup) :
    flatLookup (processWalk idx force render parseTpl gen now items) w.rel
      = none
  ∧ index_files_by_path
      (buildEntries (processWalk idx force render parseTpl gen now items)
        now) emptyIdx w.rel = none
  ∧ (∀ v ∈ items, ∀ h, v.hashResult = some h →
      flatLookup (processWalk idx force render parseTpl gen now items) v.rel
        = processFile idx force v.rel v.name h (render v.rel) parseTpl
            (gen v.rel) now) := by
  have hinj := List.inj_on_of_nodup_map hnd
  have hnotin : ∀ v ∈ items, v.hashResult.isSome = true → v.rel ≠ w.rel := by
    intro v hv hsome heq
    have hvw : v = w := hinj hv hw heq
    rw [hvw, hfail] at hsome
    cases hsome
  refine ⟨?_, ?_, ?_⟩
  · apply flatLookup_eq_none
    rw [processWalk_keys]
    intro hmem
    rw [List.mem_map] at hmem
    obtain ⟨u, hu, hur⟩ := hmem
    have hkept := (List.mem_filter.mp hu).2
    have hu2 := (List.mem_filter.mp hu).1
    have husome : u.hashResult.isSome = true := by
      unfold walkKept at hkept
      cases hu3 : u.hashResult with
      | none => rw [hu3] at hkept; cases hkept
      | some h0 => rfl
    exact hnotin u hu2 husome hur
  · apply flatten_buildEntries_none
    intro kv hkv
    obtain ⟨v, hv, h, hh, hrel, hres⟩ :=
      processWalk_mem idx force render parseTpl gen now items kv hkv
    have hfields := processFile_some idx force v.rel v.name h (render v.rel)
      parseTpl (gen v.rel) now kv.2 hres
    rw [hfields.2.1]
    exact hnotin v hv (by rw [hh]; rfl)
  · intro v hv h hh
    exact flatLookup_processWalk idx force render parseTpl gen now items hnd
      v hv h hh

/-- Witness for C4: on a concrete walk with one hash failure and one success
(and a succeeding template stage), the failed file is absent from both the
flat map and the rebuilt tree. -/
theorem c4_hash_failure_skips_witness :
    flatLookup (processWalk emptyIdx false exRenderOk exParseOk exGenNone 4
        exItemsHashFail) "a.txt" = none
  ∧ index_files_by_path
      (buildEntries (processWalk emptyIdx false exRenderOk exParseOk
        exGenNone 4 exItemsHashFail) 4) emptyIdx "a.txt" = none := by
  have h := c4_hash_failure_skips exItemsHashFail emptyIdx false exRenderOk
    exParseOk exGenNone 4 ⟨"a.txt", "a.txt", none⟩ (by decide) rfl (by decide)
  exact ⟨h.1, h.2.1⟩

/-- C2 amended: running the sync a second time over the same walk (no
filesystem change, hence identical hash, template-render and template-parse
outcomes; no force flag), with the merged index now the flattened tree built
from the first run's flat map, reproduces the first run's flat map exactly —
every file present in the first run's map is a reuse hit, keeping each
per-file `updated_at`, `hash` and `doc`, and every file skipped by the
template stage is absent from both runs — provided every first-run entry
carries a non-empty description (a file whose annotation failed is
regenerated instead). The rebuilt tree itself still differs beyond the root
`updated_at`: directory nodes are restamped with the second run's time (see
the counterexample). -/
theorem c2_second_run_reuses_all (items : List WalkItem)
    (idx1 : String → Option FileEntry) (f1 : Bool)
    (render : String → Option String) (parseTpl : String → Option Unit)
    (gen1 gen2 : String → Option Doc) (now1 now2 : Nat)
    (hnd : (items.map (fun w => w.rel)).Nodup)
    (hwalk : ∀ w ∈ items, compsOf w.rel ≠ [] ∧
      (compsOf w.rel).getLastD "" = w.name)
    (hdesc : ∀ kv ∈ processWalk idx1 f1 render parseTpl gen1 now1 items,
      kv.2.doc.fileDescription ≠ "") :
    processWalk
      (index_files_by_path
        (buildEntries (processWalk idx1 f1 render parseTpl gen1 now1 items)
          now1) emptyIdx)
      false render parseTpl gen2 now2 items
    = processWalk idx1 f1 render parseTpl gen1 now1 items := by
  have hkeysr1 : ((processWalk idx1 f1 render parseTpl gen1 now1 items).map
      (fun kv => kv.1)).Nodup := by
    rw [processWalk_keys]
    exact ((List.filter_sublist items).map (fun w => w.rel)).nodup hnd
  have hwfr1 : ∀ kv ∈ processWalk idx1 f1 render parseTpl gen1 now1 items,
      kv.2.path = kv.1 ∧ compsOf kv.1 ≠ [] ∧
        (compsOf kv.1).getLastD "" = kv.2.name := by
    intro kv hkv
    obtain ⟨w, hw, h, hh, hrel, hres⟩ :=
      processWalk_mem idx1 f1 render parseTpl gen1 now1 items kv hkv
    have hfields := processFile_some idx1 f1 w.rel w.name h (render w.rel)
      parseTpl (gen1 w.rel) now1 kv.2 hres
    refine ⟨?_, ?_, ?_⟩
    · rw [hfields.2.1, hrel]
    · rw [hrel]
      exact (hwalk w hw).1
    · rw [hrel, hfields.1]
      exact (hwalk w hw).2
  apply processWalk_congr
  intro w hw h hh
  cases hres : processFile idx1 f1 w.rel w.name h (render w.rel) parseTpl
      (gen1 w.rel) now1 with
  | some e1 =>
    have hmem : (w.rel, e1) ∈
        processWalk idx1 f1 render parseTpl gen1 now1 items :=
      processWalk_mem_of idx1 f1 render parseTpl gen1 now1 items w h e1 hw
        hh hres
    have hlook : (processWalk idx1 f1 render parseTpl gen1 now1
        items).lookup w.rel = some e1 :=
      lookup_of_mem_nodup _ w.rel _ hkeysr1 hmem
    have hsome : index_files_by_path
        (buildEntries (processWalk idx1 f1 render parseTpl gen1 now1 items)
          now1) emptyIdx w.rel = some e1 := by
      rw [flatten_buildEntries_eq_lookup _ now1 w.rel hkeysr1 hwfr1]
      exact hlook
    have hdesc1 : e1.doc.fileDescription ≠ "" := hdesc (w.rel, e1) hmem
    have hfields := processFile_some idx1 f1 w.rel w.name h (render w.rel)
      parseTpl (gen1 w.rel) now1 e1 hres
    conv_lhs => rw [processFile]
    rw [hsome]
    dsimp only
    rw [if_pos ⟨rfl, hfields.2.2, hdesc1⟩]
    rcases e1 with ⟨n, p, hs, t, d⟩
    simp only at hfields
    simp [FileEntry.mk.injEq, hfields.1, hfields.2.1, hfields.2.2]
  | none =>
    have hnotkey : w.rel ∉
        (processWalk idx1 f1 render parseTpl gen1 now1 items).map
          (fun kv => kv.1) := by
      rw [processWalk_keys]
      intro hmem
      rw [List.mem_map] at hmem
      obtain ⟨u, hu, hur⟩ := hmem
      have hu1 := (List.mem_filter.mp hu).1
      have hkept := (List.mem_filter.mp hu).2
      have huw : u = w := List.inj_on_of_nodup_map hnd hu1 hw hur
      rw [huw] at hkept
      unfold walkKept at hkept
      rw [hh] at hkept
      simp [hres] at hkept
    have hlooknone : (processWalk idx1 f1 render parseTpl gen1 now1
        items).lookup w.rel = none :=
      lookup_eq_none_of_not_mem _ w.rel hnotkey
    have hnone2 : index_files_by_path
        (buildEntries (processWalk idx1 f1 render parseTpl gen1 now1 items)
          now1) emptyIdx w.rel = none := by
      rw [flatten_buildEntries_eq_lookup _ now1 w.rel hkeysr1 hwfr1]
      exact hlooknone
    have hregen1 : regenerateFile w.rel w.name h (render w.rel) parseTpl
        (gen1 w.rel) now1 = none :=
      processFile_none idx1 f1 w.rel w.name h (render w.rel) parseTpl
        (gen1 w.rel) now1 hres
    have hregen2 : regenerateFile w.rel w.name h (render w.rel) parseTpl
        (gen2 w.rel) now2 = none :=
      regenerateFile_none_shift w.rel w.name h (render w.rel) parseTpl
        (gen1 w.rel) (gen2 w.rel) now1 now2 hregen1
    conv_lhs => rw [processFile]
    rw [hnone2]
    dsimp only
    exact hregen2

/-- Witness for C2 (amended): on a concrete one-file walk over a clean cache
with a succeeding template stage, the second run's flat map equals the first
run's. -/
theorem c2_second_run_reuses_all_witness :
    processWalk
      (index_files_by_path
        (buildEntries (processWalk exIdx false exRenderOk exParseOk exGenNone
          10 exItems) 10) emptyIdx) false exRenderOk exParseOk exGenNone 20
      exItems
    = processWalk exIdx false exRenderOk exParseOk exGenNone 10 exItems :=
  c2_second_run_reuses_all exItems exIdx false exRenderOk exParseOk exGenNone
    exGenNone 10 20 (by decide) (by decide) (by decide)

/-- C2 counterexample: (first conjunct) after two runs over an unchanged,
clean, one-file walk with a nested path, the rebuilt trees differ in the
directory node's `updated_at` (20 versus 10), so the cache file is not
byte-for-byte identical except for the root `updated_at`; (second conjunct)
when the cached description is empty, the second run regenerates instead of
reusing, changing the per-file `updated_at`. -/
theorem c2_counterexample :
    dirTimes (buildEntries (processWalk
        (index_files_by_path
          (buildEntries (processWalk exIdx false exRenderOk exParseOk
            exGenNone 10 exItems) 10) emptyIdx)
        false exRenderOk exParseOk exGenNone 20 exItems) 20) ≠
      dirTimes (buildEntries (processWalk exIdx false exRenderOk exParseOk
        exGenNone 10 exItems) 10)
  ∧ flatLookup (processWalk
        (index_files_by_path
          (buildEntries (processWalk exIdxEmpty false exRenderOk exParseOk
            exGenNone 10 exItems) 10) emptyIdx)
        false exRenderOk exParseOk exGenNone 20 exItems) "a/b.txt" ≠
      flatLookup (processWalk exIdxEmpty false exRenderOk exParseOk exGenNone
        10 exItems) "a/b.txt" := by
  have hc : compsOf "a/b.txt" = ["a", "b.txt"] := by decide
  have hr1 : processWalk exIdx false exRenderOk exParseOk exGenNone 10 exItems
      = [("a/b.txt", ⟨"b.txt", "a/b.txt", "h1", 3,
          ⟨"Helper functions", none, "e"⟩⟩)] := by
    simp [exItems, processWalk, processFile, exIdx, exPrev, exDoc, exGenNone,
      regenerateFile, exRenderOk, exParseOk]
  have hr1b : processWalk exIdxEmpty false exRenderOk exParseOk exGenNone 10
      exItems
      = [("a/b.txt", ⟨"b.txt", "a/b.txt", "h1", 10, ⟨"", none, ""⟩⟩)] := by
    simp [exItems, processWalk, processFile, exIdxEmpty, exPrevEmpty,
      exGenNone, regenerateFile, exRenderOk, exParseOk]
    rfl
  rw [hr1, hr1b]
  have ht1 : buildEntries [("a/b.txt",
      (⟨"b.txt", "a/b.txt", "h1", 3,
        (⟨"Helper functions", none, "e"⟩ : Doc)⟩ : FileEntry))] 10
      = [Node.dir "a" "a" 10 [Node.file ⟨"b.txt", "a/b.txt", "h1", 3,
          ⟨"Helper functions", none, "e"⟩⟩]] := by
    simp [buildEntries, insert_file_into_tree, hc, insert_recursive,
      insertIntoDir, leafOf]
  have ht1b : buildEntries [("a/b.txt",
      (⟨"b.txt", "a/b.txt", "h1", 10, (⟨"", none, ""⟩ : Doc)⟩ : FileEntry))]
      10 = [Node.dir "a" "a" 10 [Node.file ⟨"b.txt", "a/b.txt", "h1", 10,
        ⟨"", none, ""⟩⟩]] := by
    simp [buildEntries, insert_file_into_tree, hc, insert_recursive,
      insertIntoDir, leafOf]
  rw [ht1, ht1b]
  have key : ∀ IDX : String → Option FileEntry,
      IDX "a/b.txt" = some ⟨"b.txt", "a/b.txt", "h1", 3,
        ⟨"Helper functions", none, "e"⟩⟩ →
      processWalk IDX false exRenderOk exParseOk exGenNone 20 exItems
        = [("a/b.txt", ⟨"b.txt", "a/b.txt", "h1", 3,
            ⟨"Helper functions", none, "e"⟩⟩)] := by
    intro IDX hidx
    simp [exItems, processWalk, processFile, hidx, exGenNone]
  have keyb : ∀ IDX : String → Option FileEntry,
      IDX "a/b.txt" = some ⟨"b.txt", "a/b.txt", "h1", 10, ⟨"", none, ""⟩⟩ →
      processWalk IDX false exRenderOk exParseOk exGenNone 20 exItems
        = [("a/b.txt", ⟨"b.txt", "a/b.txt", "h1", 20, ⟨"", none, ""⟩⟩)] := by
    intro IDX hidx
    simp [exItems, processWalk, processFile, hidx, exGenNone, regenerateFile,
      exRenderOk, exParseOk]
    rfl
  have hidx : index_files_by_path [Node.dir "a" "a" 10
      [Node.file ⟨"b.txt", "a/b.txt", "h1", 3,
        ⟨"Helper functions", none, "e"⟩⟩]] emptyIdx "a/b.txt"
      = some ⟨"b.txt", "a/b.txt", "h1", 3,
        ⟨"Helper functions", none, "e"⟩⟩ := by
    simp [index_files_by_path, emptyIdx]
  have hidxb : index_files_by_path [Node.dir "a" "a" 10
      [Node.file ⟨"b.txt", "a/b.txt", "h1", 10, ⟨"", none, ""⟩⟩]] emptyIdx
      "a/b.txt" = some ⟨"b.txt", "a/b.txt", "h1", 10, ⟨"", none, ""⟩⟩ := by
    simp [index_files_by_path, emptyIdx]
  rw [key _ hidx, keyb _ hidxb]
  constructor
  · rw [show buildEntries [("a/b.txt",
        (⟨"b.txt", "a/b.txt", "h1", 3,
          (⟨"Helper functions", none, "e"⟩ : Doc)⟩ : FileEntry))] 20
        = [Node.dir "a" "a" 20 [Node.file ⟨"b.txt", "a/b.txt", "h1", 3,
            ⟨"Helper functions", none, "e"⟩⟩]] from by
      simp [buildEntries, insert_file_into_tree, hc, insert_recursive,
        insertIntoDir, leafOf]]
    simp [dirTimes]
  · simp [flatLookup, List.find?]

/-- C8: child-cache discovery records exactly those directories reachable
from the root through readable, cache-free ancestors that are themselves
readable and directly contain a file case-insensitively matching a recognized
cache name — so a cache-bearing directory is never descended into and a
deeper nested cache is never discovered, cache-free directories have all
their subdirectories traversed, and unreadable directories contribute nothing
(discovery is total, no error); the returned list is sorted and
deduplicated. -/
theorem c8_discovery (fs : FsDir) :
    (∀ p : List String, p ∈ find_child_cache_dirs fs ↔ okPath p fs = true)
  ∧ List.Pairwise (fun a b => pathLe a b = true) (find_child_cache_dirs fs)
  ∧ (find_child_cache_dirs fs).Nodup := by
  have htot : ∀ a b, (pathLe a b || pathLe b a) = true := by
    intro a b
    rcases pathLe_total a b with h | h <;> simp [h]
  have hsorted := List.sorted_mergeSort pathLe_trans htot (findLoop [([], fs)])
  refine ⟨?_, ?_, ?_⟩
  · intro p
    unfold find_child_cache_dirs
    rw [mem_dedupConsec, List.mem_mergeSort, findLoop_mem]
    constructor
    · rintro ⟨e, he, rr, hq, hok⟩
      rcases List.mem_singleton.mp he with rfl
      rw [List.nil_append] at hq
      rw [hq]
      exact hok
    · intro hok
      exact ⟨([], fs), List.mem_singleton_self _, p, by simp, hok⟩
  · unfold find_child_cache_dirs
    exact List.Pairwise.sublist (dedupConsec_sublist _) hsorted
  · unfold find_child_cache_dirs
    exact nodup_of_sorted_chain _
      (List.Pairwise.sublist (dedupConsec_sublist _) hsorted)
      (dedupConsec_chain_ne _)

end Dirdocs
